import Mathlib

/-!
Verification of a combinator-calculus and first-order-unification library.

The development shallowly embeds two Python modules:

- combinator_calculus.py : the SK combinator term model (classes Var, PrimComb,
  App), the canonical printer (the dunder str methods), the recursive-descent
  parser (parse_term, parse), the one-step and to-normal-form reduction engine
  (reduce1, reduce), and the term-algebra adapter used for unification.
- unify.py : the generic unification algorithm (Unifier.occurs_in, Unifier.subst,
  Unifier.unify, Unifier.unify2) instantiated at the GeneralUnifier tuple
  algebra, where an application of a symbol f to arguments a1 .. an is the
  tuple (f, a1, .., an) and every non-tuple value is a variable.

Python dictionaries are modelled as insertion-ordered association lists with
unique keys; the in-place mutation of the equation work-list and of the
substitution dictionary is modelled by explicit state passing.  The possibly
non-terminating loops (reduce, unify) are modelled with an explicit fuel
parameter; a result of none means the loop was still running after the given
number of iterations.
-/

namespace CombCalc

/-- Terms of the combinator calculus: class Term with subclasses Var, PrimComb
and App in combinator_calculus.py.  Dataclass equality is structural and
class-aware, which matches derived decidable equality of the inductive. -/
inductive Term where
  | Var (name : String)
  | PrimComb (name : String)
  | App (left right : Term)
deriving DecidableEq

/-- The singleton PrimComb.S of the source. -/
def PrimS : Term := .PrimComb "S"

/-- The singleton PrimComb.K of the source. -/
def PrimK : Term := .PrimComb "K"

/-- The canonical printer: the three dunder str methods.  A Var prints as its
name when the name has exactly one character and as the name wrapped in angle
brackets otherwise; a PrimComb prints as its name; an App prints its left child
followed by its right child, the right child being parenthesized exactly when
it is itself an App. -/
def strTerm : Term → String
  | .Var name => if name.length = 1 then name else "<" ++ name ++ ">"
  | .PrimComb name => name
  | .App left right =>
      strTerm left ++
        (match right with
         | .App _ _ => "(" ++ strTerm right ++ ")"
         | _ => strTerm right)

/-- Character-list form of the printer, used by the parser proofs. -/
def printL : Term → List Char
  | .Var name => if name.length = 1 then name.data else '<' :: name.data ++ ['>']
  | .PrimComb name => name.data
  | .App left right =>
      printL left ++
        (match right with
         | .App _ _ => '(' :: printL right ++ [')']
         | _ => printL right)

/-- Errors raised by the parser (the four ValueError messages of parse_term and
parse).  Each constructor carries exactly the data interpolated into the
corresponding message; the empty-term message interpolates no position. -/
inductive ParseError where
  | invalidChar (i : Nat)
  | unclosedBracket (i : Nat)
  | emptyTerm
  | extraneousBracket (i : Nat)
deriving DecidableEq

/-- Helper acc_append of parse_term: the first atom becomes the accumulator,
later atoms are combined left-associatively. -/
def acc_append : Option Term → Term → Term
  | none, t => t
  | some a, t => .App a t

/-- The while-loop of parse_term, with the loop state (current index i and
accumulator acc) made explicit.  The returned index is bundled with the proof
that the loop never moves backwards, which justifies termination.  The branch
structure follows the source: an S or K character appends a primitive
combinator; an opening bracket recurses with i0 = i + 1; a closing bracket
breaks out of the loop; any other character raises invalid-character; falling
off the end of the string raises unclosed-bracket when i0 is not 0, and in
every exit path an empty accumulator raises the empty-term error. -/
def parseTermGo (src : List Char) (i0 : Nat) (i : Nat) (acc : Option Term) :
    Except ParseError (Term × {j : Nat // i ≤ j}) :=
  if h : i < src.length then
    if src[i] = 'S' ∨ src[i] = 'K' then
      Except.map (fun p => (p.1, ⟨p.2.1, Nat.le_of_succ_le p.2.2⟩))
        (parseTermGo src i0 (i+1) (some (acc_append acc (.PrimComb (src[i]).toString))))
    else if src[i] = '(' then
      (parseTermGo src (i+1) (i+1) none).bind (fun p =>
        Except.map
          (fun q => (q.1, ⟨q.2.1, Nat.le_trans (Nat.le_trans (Nat.le_succ i) p.2.2) q.2.2⟩))
          (parseTermGo src i0 p.2.1 (some (acc_append acc p.1))))
    else if src[i] = ')' then
      match acc with
      | none => .error .emptyTerm
      | some t => .ok (t, ⟨i+1, Nat.le_succ i⟩)
    else .error (.invalidChar i)
  else
    if i0 ≠ 0 then .error (.unclosedBracket (i0 - 1))
    else match acc with
      | none => .error .emptyTerm
      | some t => .ok (t, ⟨i, Nat.le_refl i⟩)
termination_by src.length + 1 - i
decreasing_by
  · omega
  · omega
  · have := p.2.2; omega

/-- The loop of parse_term with the index bound erased. -/
def parseTermLoop (src : List Char) (i0 : Nat) (i : Nat) (acc : Option Term) :
    Except ParseError (Term × Nat) :=
  match parseTermGo src i0 i acc with
  | .error e => .error e
  | .ok (t, j) => .ok (t, j.val)

/-- Function parse_term of the source: run the loop from index i0 with an empty
accumulator. -/
def parse_term (src : List Char) (i0 : Nat) : Except ParseError (Term × Nat) :=
  parseTermLoop src i0 i0 none

/-- Function parse of the source: parse from index 0 and raise
extraneous-closing-bracket when the returned index is not the length of the
input. -/
def parse (src : String) : Except ParseError Term :=
  match parse_term src.data 0 with
  | .error e => .error e
  | .ok (t, i) =>
      if i ≠ src.data.length then .error (.extraneousBracket (i - 1))
      else .ok t

/-- The root-redex tests at the start of the App branch of reduce1, for a term
App l r.  The S-rule fires when l.left is an App whose left is the S
combinator; otherwise the source compares l.left with the K combinator (a
comparison that is vacuously false when l.left is an App) and the K-rule fires
when they are equal. -/
def rootRedex (l r : Term) : Option Term :=
  match l with
  | .App (.App lll llr) lr =>
      if lll = PrimS then some (.App (.App llr r) (.App lr r)) else none
  | .App ll lr => if ll = PrimK then some lr else none
  | _ => none

/-- Function reduce1 of the source, translated branch for branch.  For a Var or
a PrimComb the source returns the term itself (not None).  For an App it first
tests the S-rule shape ((S a) b) c, then the K-rule shape (K a) b, at the root
(rootRedex); when neither matches it reduces the left child, and only when the
recursive call on the left child returns None does it reduce the right child;
None is returned only when both recursive calls return None. -/
def reduce1 : Term → Option Term
  | .Var name => some (.Var name)
  | .PrimComb name => some (.PrimComb name)
  | .App l r =>
    match rootRedex l r with
    | some t => some t
    | none =>
      match reduce1 l with
      | some l2 => some (.App l2 r)
      | none =>
        match reduce1 r with
        | some r2 => some (.App l r2)
        | none => none

/-- Function reduce of the source: the unbounded while-loop, indexed by fuel.
Each loop iteration calls reduce1 once; the loop exits, returning the current
term, exactly when reduce1 returns None.  A result of none means the loop was
still running after the given number of iterations. -/
def reduceFuel : Nat → Term → Option Term
  | 0, _ => none
  | n+1, t =>
    match reduce1 t with
    | none => some t
    | some t2 => reduceFuel n t2

/-- Function-symbol space of the combinator term-algebra adapter (class Unifier
of combinator_calculus.py): the values actually returned by fun_sym are
PrimComb instances and the App class object. -/
inductive CFunSym where
  | primComb (name : String)
  | appCls
deriving DecidableEq

namespace Unifier

/-- Method apply of the adapter: a PrimComb symbol maps back to that PrimComb,
ignoring the arguments; the App symbol with exactly two arguments builds an
App node; anything else raises ValueError, modelled as none. -/
def apply : CFunSym → List Term → Option Term
  | .primComb name, _ => some (.PrimComb name)
  | .appCls, [a, b] => some (.App a b)
  | .appCls, _ => none

/-- Method is_var of the adapter. -/
def is_var : Term → Bool
  | .Var _ => true
  | _ => false

/-- Method fun_sym of the adapter; a Var raises ValueError, modelled as none. -/
def fun_sym : Term → Option CFunSym
  | .PrimComb name => some (.primComb name)
  | .App _ _ => some .appCls
  | .Var _ => none

/-- Method args of the adapter; a Var raises ValueError, modelled as none. -/
def args : Term → Option (List Term)
  | .PrimComb _ => some []
  | .App l r => some [l, r]
  | .Var _ => none

/-- Argument sequences on which apply does not raise and does not discard
anything: none for a primitive combinator (whose apply ignores its arguments),
exactly two for the application symbol. -/
def validArgs : CFunSym → List Term → Prop
  | .primComb _, as => as = []
  | .appCls, as => as.length = 2

end Unifier

/-- Grafting a term x onto the bottom of the left spine of t: the shape built
by the left-associative accumulator of parse_term when the flat rendering of t
is scanned starting from accumulator x. -/
def graft (x : Term) : Term → Term
  | .App l r => .App (graft x l) r
  | t => .App x t

/-- Option-accumulator version of graft. -/
def graftOpt : Option Term → Term → Term
  | none, t => t
  | some x, t => graft x t

/-- Terms built only from the primitive combinators S and K and application:
the terms covered by the parser/printer round-trip property. -/
def isSK : Term → Bool
  | .PrimComb name => name = "S" || name = "K"
  | .App l r => isSK l && isSK r
  | .Var _ => false

end CombCalc

namespace Unify

/-- Terms of the GeneralUnifier tuple algebra of unify.py: a Python value that
is either a string (treated as a variable) or a tuple of such values (treated
as the application of its first element to the rest). -/
inductive GTerm where
  | str (s : String)
  | tup (elems : List GTerm)

mutual

/-- Structural equality on GTerm, mirroring Python equality of strings and
tuples. -/
def GTerm.beq : GTerm → GTerm → Bool
  | .str a, .str b => a == b
  | .tup xs, .tup ys => GTerm.beqList xs ys
  | _, _ => false

/-- Pointwise equality of GTerm lists. -/
def GTerm.beqList : List GTerm → List GTerm → Bool
  | [], [] => true
  | a :: as, b :: bs => GTerm.beq a b && GTerm.beqList as bs
  | _, _ => false

end

mutual

/-- Soundness of GTerm.beq. -/
def GTerm.eq_of_beq : ∀ {a b : GTerm}, GTerm.beq a b = true → a = b
  | .str a, .str b, h => by
      have hab : a = b := by simpa [GTerm.beq] using h
      rw [hab]
  | .tup xs, .tup ys, h => by
      have hxy : xs = ys := GTerm.eqList_of_beqList (by simpa [GTerm.beq] using h)
      rw [hxy]
  | .str _, .tup _, h => by simp [GTerm.beq] at h
  | .tup _, .str _, h => by simp [GTerm.beq] at h

/-- Soundness of GTerm.beqList. -/
def GTerm.eqList_of_beqList : ∀ {xs ys : List GTerm}, GTerm.beqList xs ys = true → xs = ys
  | [], [], _ => rfl
  | a :: as, b :: bs, h => by
      have h2 : GTerm.beq a b = true ∧ GTerm.beqList as bs = true := by
        simpa [GTerm.beqList, Bool.and_eq_true] using h
      have e1 : a = b := GTerm.eq_of_beq h2.1
      have e2 : as = bs := GTerm.eqList_of_beqList h2.2
      rw [e1, e2]
  | [], _ :: _, h => by simp [GTerm.beqList] at h
  | _ :: _, [], h => by simp [GTerm.beqList] at h

end

mutual

/-- Reflexivity of GTerm.beq. -/
def GTerm.beq_refl : ∀ a : GTerm, GTerm.beq a a = true
  | .str a => by simp [GTerm.beq]
  | .tup xs => by simpa [GTerm.beq] using GTerm.beqList_refl xs

/-- Reflexivity of GTerm.beqList. -/
def GTerm.beqList_refl : ∀ xs : List GTerm, GTerm.beqList xs xs = true
  | [] => rfl
  | a :: as => by simp [GTerm.beqList, GTerm.beq_refl a, GTerm.beqList_refl as]

end

instance : DecidableEq GTerm := fun a b =>
  decidable_of_iff (GTerm.beq a b = true) ⟨GTerm.eq_of_beq, fun h => h ▸ GTerm.beq_refl a⟩

/-- Method is_var of GeneralUnifier: anything which is not a tuple is a
variable. -/
def is_var : GTerm → Bool
  | .tup _ => false
  | .str _ => true

/-- Method fun_sym of GeneralUnifier: the first element of the tuple.  On an
empty tuple the source raises IndexError, and on a string it slices the
string; the unification loop only calls fun_sym on values whose is_var test is
false, so only the first branch is exercised by it; the fallthrough result is
an arbitrary placeholder. -/
def fun_sym : GTerm → GTerm
  | .tup (f :: _) => f
  | t => t

/-- Method args of GeneralUnifier: every element of the tuple after the first.
On a string the source would slice the string; the unification loop only calls
args on tuples. -/
def args : GTerm → List GTerm
  | .tup xs => xs.tail
  | _ => []

/-- Method apply of GeneralUnifier: the application of f to args is the tuple
with first element f followed by args. -/
def apply (f : GTerm) (as : List GTerm) : GTerm := .tup (f :: as)

mutual

/-- Method Unifier.occurs_in instantiated at the GeneralUnifier algebra: a
variable occurs in a variable iff they are equal, and occurs in an application
iff it occurs in one of its arguments (the elements of the tuple after the
first). -/
def occurs_in (v : GTerm) : GTerm → Bool
  | .str s => v = GTerm.str s
  | .tup [] => false
  | .tup (_ :: rest) => occursArgs v rest

/-- Disjunction of occurs_in over a list of arguments: the generator any(..)
of the source. -/
def occursArgs (v : GTerm) : List GTerm → Bool
  | [] => false
  | a :: as => occurs_in v a || occursArgs v as

end

/-- Python dict lookup s.get(k, default absent): substitutions are modelled as
insertion-ordered association lists with unique keys, so the first match is
the binding. -/
def dictGet (s : List (GTerm × GTerm)) (k : GTerm) : Option GTerm :=
  match s with
  | [] => none
  | p :: rest => if p.1 = k then some p.2 else dictGet rest k

/-- Python dict update s |= singleton k v: replace the value at an existing
key in place, else append the new binding at the end. -/
def dictSet (s : List (GTerm × GTerm)) (k v : GTerm) : List (GTerm × GTerm) :=
  match s with
  | [] => [(k, v)]
  | p :: rest => if p.1 = k then (k, v) :: rest else p :: dictSet rest k v

mutual

/-- Method Unifier.subst instantiated at the GeneralUnifier algebra: a variable
maps to its binding when present (not re-substituted) and to itself otherwise;
a tuple keeps its first element and substitutes into the remaining elements.
On an empty tuple the source raises IndexError inside fun_sym; the placeholder
branch keeps the computation total and is unreachable from the unification
loop. -/
def subst (s : List (GTerm × GTerm)) : GTerm → GTerm
  | .str v => (dictGet s (.str v)).getD (.str v)
  | .tup [] => .tup [fun_sym (.tup [])]
  | .tup (f :: rest) => .tup (f :: substArgs s rest)

/-- Map of subst over a list of arguments: the tuple comprehension of the
source. -/
def substArgs (s : List (GTerm × GTerm)) : List GTerm → List GTerm
  | [] => []
  | a :: as => subst s a :: substArgs s as

end

/-- Unification errors of unify.py, each carrying the data interpolated into
its message: the occurs-check error names the variable and the term it occurs
in, the mismatch error names the two different function symbols. -/
inductive UnificationError where
  | occursCheck (v t : GTerm)
  | symbolMismatch (f g : GTerm)
deriving DecidableEq

/-- Result of one iteration of the unification loop body: either an error is
raised, or the loop continues with updated equations and substitution. -/
inductive StepRes where
  | fail (e : UnificationError)
  | next (eqs : List (GTerm × GTerm)) (s : List (GTerm × GTerm))
deriving DecidableEq

/-- The body of the while-loop of Unifier.unify, for a popped equation
(l, r), the remaining work-list rest, and the accumulated substitution s.
Branches in source order: equal sides are discarded; a variable on the left is
occurs-checked and then bound, the new singleton binding being eagerly applied
to every remaining equation and to every value of the accumulated substitution
before being merged into it; a variable on the right only re-enqueues the
swapped equation; two applications with different function symbols raise the
mismatch error, and with equal symbols their argument lists are zipped into
new equations appended to the work-list. -/
def unifyStep (l r : GTerm) (rest : List (GTerm × GTerm))
    (s : List (GTerm × GTerm)) : StepRes :=
  if l = r then .next rest s
  else if is_var l then
    if occurs_in l r then .fail (.occursCheck l r)
    else
      .next (rest.map (fun p => (subst [(l, r)] p.1, subst [(l, r)] p.2)))
            (dictSet (s.map (fun p => (p.1, subst [(l, r)] p.2))) l r)
  else if is_var r then .next (rest ++ [(r, l)]) s
  else if fun_sym l ≠ fun_sym r then
    .fail (.symbolMismatch (fun_sym l) (fun_sym r))
  else .next (rest ++ (args l).zip (args r)) s

/-- The while-loop of Unifier.unify, indexed by fuel.  The source list is used
as a stack: equations.pop() removes the last element and equations.append adds
at the end.  A result of none means the loop was still running after the given
number of iterations; otherwise the loop either raised an error or returned
the accumulated substitution once the work-list was empty. -/
def unifyFuel : Nat → List (GTerm × GTerm) → List (GTerm × GTerm) →
    Option (Except UnificationError (List (GTerm × GTerm)))
  | 0, _, _ => none
  | n+1, eqs, s =>
    match eqs.getLast? with
    | none => some (.ok s)
    | some (l, r) =>
      match unifyStep l r eqs.dropLast s with
      | .fail e => some (.error e)
      | .next eqs2 s2 => unifyFuel n eqs2 s2

/-- Method Unifier.unify: a None initial substitution means the empty one. -/
def unify (fuel : Nat) (equations : List (GTerm × GTerm))
    (s : Option (List (GTerm × GTerm))) :
    Option (Except UnificationError (List (GTerm × GTerm))) :=
  unifyFuel fuel equations (s.getD [])

/-- Method Unifier.unify2: sugar for unify on a single equation. -/
def unify2 (fuel : Nat) (l r : GTerm) (s : Option (List (GTerm × GTerm))) :
    Option (Except UnificationError (List (GTerm × GTerm))) :=
  unify fuel [(l, r)] s

mutual

/-- Structural induction principle for GTerm with element-wise hypotheses for
tuples. -/
def GTerm.recOn2 {P : GTerm → Prop} (hstr : ∀ s, P (GTerm.str s))
    (htup : ∀ xs, (∀ a ∈ xs, P a) → P (GTerm.tup xs)) : ∀ t, P t
  | .str s => hstr s
  | .tup xs => htup xs (GTerm.recListOn2 hstr htup xs)

/-- Element-wise form of GTerm.recOn2. -/
def GTerm.recListOn2 {P : GTerm → Prop} (hstr : ∀ s, P (GTerm.str s))
    (htup : ∀ xs, (∀ a ∈ xs, P a) → P (GTerm.tup xs)) :
    ∀ xs : List GTerm, ∀ a ∈ xs, P a
  | x :: restx, a, ha =>
      (List.mem_cons.mp ha).elim
        (fun h => h ▸ GTerm.recOn2 hstr htup x)
        (fun h => GTerm.recListOn2 hstr htup restx a h)
  | [], a, ha => absurd ha (List.not_mem_nil a)

end

/-- The substitution-closure property: no variable bound in the substitution
occurs in any of the values of the substitution. -/
def SubstOk (s : List (GTerm × GTerm)) : Prop :=
  ∀ p ∈ s, ∀ q ∈ s, occurs_in p.1 q.2 = false

/-- Invariant of the unification loop: the accumulated substitution satisfies
the closure property and none of its bound variables occurs anywhere in the
pending equations. -/
def UnifyInv (eqs s : List (GTerm × GTerm)) : Prop :=
  SubstOk s ∧ ∀ p ∈ s, ∀ e ∈ eqs, occurs_in p.1 e.1 = false ∧ occurs_in p.1 e.2 = false

end Unify

namespace CombCalc

/-- On every input, reduce1 returns a term: the branch returning None is
unreachable, because the Var and PrimComb base cases return the term itself
rather than None. -/
theorem reduce1_isSome (t : Term) : (reduce1 t).isSome = true := by
  induction t with
  | Var name => rfl
  | PrimComb name => rfl
  | App l r ihl ihr =>
    rw [reduce1]
    cases hroot : rootRedex l r with
    | some t2 => rfl
    | none =>
      cases hl : reduce1 l with
      | some l2 => rfl
      | none => rw [hl] at ihl; simp at ihl

/-- The while-loop of reduce never exits, whatever the starting term: reduce1
always hands it another term to continue with. -/
theorem reduceFuel_eq_none (n : Nat) : ∀ t : Term, reduceFuel n t = none := by
  induction n with
  | zero => intro t; rfl
  | succ n ih =>
    intro t
    rw [reduceFuel]
    cases ht : reduce1 t with
    | none =>
      have hs := reduce1_isSome t
      rw [ht] at hs
      simp at hs
    | some t2 => exact ih t2

/-- Loop exit at the end of the input inside a bracketed group: the
unclosed-bracket error. -/
theorem parseTermLoop_end_closed (src : List Char) (i0 i : Nat) (acc : Option Term)
    (h : src.length ≤ i) (h0 : i0 ≠ 0) :
    parseTermLoop src i0 i acc = .error (.unclosedBracket (i0 - 1)) := by
  rw [parseTermLoop, parseTermGo.eq_def, dif_neg (by omega), if_pos h0]

/-- Loop exit at the end of the input at top level with nothing accumulated:
the empty-term error. -/
theorem parseTermLoop_end_empty (src : List Char) (i : Nat) (h : src.length ≤ i) :
    parseTermLoop src 0 i none = .error .emptyTerm := by
  rw [parseTermLoop, parseTermGo.eq_def, dif_neg (by omega)]
  simp

/-- Loop exit at the end of the input at top level with an accumulated term:
the successful return of parse_term. -/
theorem parseTermLoop_end_ok (src : List Char) (i : Nat) (t : Term) (h : src.length ≤ i) :
    parseTermLoop src 0 i (some t) = .ok (t, i) := by
  rw [parseTermLoop, parseTermGo.eq_def, dif_neg (by omega)]
  simp

/-- Loop step on an S or K character: append the primitive combinator to the
accumulator and advance. -/
theorem parseTermLoop_sk (src : List Char) (i0 i : Nat) (acc : Option Term)
    (h : i < src.length) (hc : src[i] = 'S' ∨ src[i] = 'K') :
    parseTermLoop src i0 i acc =
      parseTermLoop src i0 (i+1) (some (acc_append acc (.PrimComb (src[i]).toString))) := by
  rw [parseTermLoop, parseTermGo.eq_def, dif_pos h, if_pos hc, parseTermLoop]
  cases parseTermGo src i0 (i+1) (some (acc_append acc (.PrimComb (src[i]).toString))) with
  | error e => rfl
  | ok p =>
    obtain ⟨t, j, hj⟩ := p
    rfl

/-- Loop step on an opening bracket: recurse with i0 = i + 1, then append the
returned sub-term to the accumulator and continue from the returned index. -/
theorem parseTermLoop_open (src : List Char) (i0 i : Nat) (acc : Option Term)
    (h : i < src.length) (hc : src[i] = '(') :
    parseTermLoop src i0 i acc =
      match parseTermLoop src (i+1) (i+1) none with
      | .error e => .error e
      | .ok (t, j) => parseTermLoop src i0 j (some (acc_append acc t)) := by
  simp only [parseTermLoop]
  conv_lhs => rw [parseTermGo.eq_def]
  rw [dif_pos h, if_neg (by simp [hc]), if_pos hc]
  cases parseTermGo src (i+1) (i+1) none with
  | error e => rfl
  | ok p =>
    obtain ⟨t, j, hj⟩ := p
    dsimp only [Except.bind]
    cases parseTermGo src i0 j (some (acc_append acc t)) with
    | error e => rfl
    | ok q =>
      obtain ⟨u, k, hk⟩ := q
      rfl

/-- Loop step on a closing bracket with nothing accumulated: break out of the
loop and hit the empty-term error. -/
theorem parseTermLoop_close_none (src : List Char) (i0 i : Nat)
    (h : i < src.length) (hc : src[i] = ')') :
    parseTermLoop src i0 i none = .error .emptyTerm := by
  rw [parseTermLoop, parseTermGo.eq_def, dif_pos h, if_neg (by simp [hc]),
    if_neg (by simp [hc]), if_pos hc]

/-- Loop step on a closing bracket with an accumulated term: break out of the
loop, consuming the bracket, and return. -/
theorem parseTermLoop_close_some (src : List Char) (i0 i : Nat) (t : Term)
    (h : i < src.length) (hc : src[i] = ')') :
    parseTermLoop src i0 i (some t) = .ok (t, i + 1) := by
  rw [parseTermLoop, parseTermGo.eq_def, dif_pos h, if_neg (by simp [hc]),
    if_neg (by simp [hc]), if_pos hc]

/-- Loop step on any other character: the invalid-character error, tagged with
the current index. -/
theorem parseTermLoop_invalid (src : List Char) (i0 i : Nat) (acc : Option Term)
    (h : i < src.length)
    (hS : src[i] ≠ 'S') (hK : src[i] ≠ 'K') (hP : src[i] ≠ '(') (hC : src[i] ≠ ')') :
    parseTermLoop src i0 i acc = .error (.invalidChar i) := by
  rw [parseTermLoop, parseTermGo.eq_def, dif_pos h, if_neg (by simp [hS, hK]),
    if_neg hP, if_neg hC]

end CombCalc


namespace CombCalc

/-- Bridge from optional indexing to indexing with a bound. -/
theorem getElem_eq_of_getElemOpt {α : Type} (l : List α) (i : Nat) (a : α)
    (h : i < l.length) (h2 : l[i]? = some a) : l[i] = a := by
  rw [List.getElem?_eq_getElem h] at h2
  exact Option.some.inj h2

/-- Optional indexing of an append at an offset past the prefix. -/
theorem getElemOpt_append_length_add {α : Type} (A B : List α) (k : Nat) :
    (A ++ B)[A.length + k]? = B[k]? := by
  rw [List.getElem?_append_right (by omega)]
  congr 1
  omega

/-- Indexing an append at the length of the prefix yields the first element of
the suffix. -/
theorem getElem_append_cons (pre : List Char) (c : Char) (rest : List Char)
    (h : pre.length < (pre ++ c :: rest).length) :
    (pre ++ c :: rest)[pre.length] = c := by
  induction pre with
  | nil => rfl
  | cons a as ih => simpa using ih (by simp)

/-- The printer on strings agrees with its character-list form. -/
theorem strTerm_data (t : Term) : (strTerm t).data = printL t := by
  induction t with
  | Var name =>
    by_cases h : name.length = 1 <;>
      simp [strTerm, printL, h, String.data_append]
  | PrimComb name => rfl
  | App l r ihl ihr =>
    cases r with
    | Var rname =>
      show ((strTerm l) ++ strTerm (.Var rname)).data = printL l ++ printL (.Var rname)
      rw [String.data_append, ihl, ihr]
    | PrimComb rname =>
      show ((strTerm l) ++ strTerm (.PrimComb rname)).data
          = printL l ++ printL (.PrimComb rname)
      rw [String.data_append, ihl, ihr]
    | App r1 r2 =>
      show ((strTerm l) ++ ("(" ++ strTerm (.App r1 r2) ++ ")")).data
          = printL l ++ ('(' :: (printL (.App r1 r2) ++ [')']))
      rw [String.data_append, String.data_append, String.data_append, ihl, ihr]
      rfl

/-- Grafting distributes through the left spine of an application. -/
theorem graftOpt_app (acc : Option Term) (l r : Term) :
    graftOpt acc (.App l r) = .App (graftOpt acc l) r := by
  cases acc <;> rfl

/-- On a primitive combinator, acc_append and graftOpt agree. -/
theorem acc_append_prim (acc : Option Term) (n : String) :
    acc_append acc (.PrimComb n) = graftOpt acc (.PrimComb n) := by
  cases acc <;> rfl

end CombCalc

namespace CombCalc

/-- Running the parser loop across the printed form of a variable-free term
advances the index by the length of the printed form and grafts the term onto
the accumulator, leaving the surrounding input and the bracket level i0
untouched. -/
theorem parse_run (t : Term) :
    ∀ (pre rest : List Char) (i0 : Nat) (acc : Option Term), isSK t = true →
    parseTermLoop (pre ++ (printL t ++ rest)) i0 pre.length acc =
      parseTermLoop (pre ++ (printL t ++ rest)) i0 (pre.length + (printL t).length)
        (some (graftOpt acc t)) := by
  induction t with
  | Var name =>
    intro pre rest i0 acc hsk
    simp [isSK] at hsk
  | PrimComb name =>
    intro pre rest i0 acc hsk
    have hn : name = "S" ∨ name = "K" := by
      simpa [isSK, Bool.or_eq_true, decide_eq_true_eq] using hsk
    rcases hn with hn | hn <;> subst hn
    · show parseTermLoop (pre ++ 'S' :: rest) i0 pre.length acc =
        parseTermLoop (pre ++ 'S' :: rest) i0 (pre.length + 1)
          (some (graftOpt acc (.PrimComb "S")))
      have h : pre.length < (pre ++ 'S' :: rest).length := by simp
      have hc : (pre ++ 'S' :: rest)[pre.length] = 'S' := getElem_append_cons pre 'S' rest h
      rw [parseTermLoop_sk (pre ++ 'S' :: rest) i0 pre.length acc h (Or.inl hc), hc,
        acc_append_prim]
      rfl
    · show parseTermLoop (pre ++ 'K' :: rest) i0 pre.length acc =
        parseTermLoop (pre ++ 'K' :: rest) i0 (pre.length + 1)
          (some (graftOpt acc (.PrimComb "K")))
      have h : pre.length < (pre ++ 'K' :: rest).length := by simp
      have hc : (pre ++ 'K' :: rest)[pre.length] = 'K' := getElem_append_cons pre 'K' rest h
      rw [parseTermLoop_sk (pre ++ 'K' :: rest) i0 pre.length acc h (Or.inr hc), hc,
        acc_append_prim]
      rfl
  | App l r ihl ihr =>
    intro pre rest i0 acc hsk
    have hsk2 : isSK l = true ∧ isSK r = true := by
      simpa [isSK, Bool.and_eq_true] using hsk
    cases r with
    | Var rname => simp [isSK] at hsk2
    | PrimComb m =>
      have e1 := ihl pre (printL (.PrimComb m) ++ rest) i0 acc hsk2.1
      have e2 := ihr (pre ++ printL l) rest i0 (some (graftOpt acc l)) hsk2.2
      rw [List.append_assoc, List.length_append] at e2
      rw [show printL (.App l (.PrimComb m)) = printL l ++ printL (.PrimComb m) from rfl,
        List.append_assoc, e1, e2, List.length_append, ← Nat.add_assoc, graftOpt_app]
      rfl
    | App r1 r2 =>
      rw [show pre ++ (printL (.App l (.App r1 r2)) ++ rest)
            = pre ++ (printL l ++ ('(' :: (printL (.App r1 r2) ++ (')' :: rest)))) from by
          rw [show printL (.App l (.App r1 r2))
              = printL l ++ ('(' :: (printL (.App r1 r2) ++ [')'])) from rfl]
          simp]
      rw [ihl pre ('(' :: (printL (.App r1 r2) ++ (')' :: rest))) i0 acc hsk2.1]
      set src := pre ++ (printL l ++ ('(' :: (printL (.App r1 r2) ++ (')' :: rest))))
        with hsrc
      have h1 : pre.length + (printL l).length < src.length := by
        rw [hsrc]
        simp only [List.length_append, List.length_cons]
        omega
      have hco : src[pre.length + (printL l).length] = '(' := by
        apply getElem_eq_of_getElemOpt _ _ _ h1
        rw [hsrc, getElemOpt_append_length_add pre
          (printL l ++ ('(' :: (printL (.App r1 r2) ++ (')' :: rest)))) ((printL l).length)]
        simpa using getElemOpt_append_length_add (printL l)
          ('(' :: (printL (.App r1 r2) ++ (')' :: rest))) 0
      rw [parseTermLoop_open src i0 (pre.length + (printL l).length)
        (some (graftOpt acc l)) h1 hco]
      have e2 := ihr (pre ++ printL l ++ ['(']) (')' :: rest)
        (pre.length + (printL l).length + 1) none hsk2.2
      have e2s : pre ++ printL l ++ ['('] ++ (printL (.App r1 r2) ++ (')' :: rest))
          = src := by
        rw [hsrc]
        simp
      have e2l : (pre ++ printL l ++ ['(']).length
          = pre.length + (printL l).length + 1 := by
        simp only [List.length_append, List.length_cons, List.length_nil]
      rw [e2s, e2l, show graftOpt none (.App r1 r2) = Term.App r1 r2 from rfl] at e2
      rw [e2]
      have h2 : pre.length + (printL l).length + 1 + (printL (.App r1 r2)).length
          < src.length := by
        rw [hsrc]
        simp only [List.length_append, List.length_cons]
        omega
      have hcc : src[pre.length + (printL l).length + 1 + (printL (.App r1 r2)).length]
          = ')' := by
        apply getElem_eq_of_getElemOpt _ _ _ h2
        rw [show pre.length + (printL l).length + 1 + (printL (.App r1 r2)).length
            = pre.length + ((printL l).length + (1 + (printL (.App r1 r2)).length)) from by
          omega]
        rw [hsrc, getElemOpt_append_length_add pre
          (printL l ++ ('(' :: (printL (.App r1 r2) ++ (')' :: rest))))
          ((printL l).length + (1 + (printL (.App r1 r2)).length)),
          getElemOpt_append_length_add (printL l)
          ('(' :: (printL (.App r1 r2) ++ (')' :: rest)))
          (1 + (printL (.App r1 r2)).length),
          show 1 + (printL (.App r1 r2)).length = (printL (.App r1 r2)).length + 1 from by
            omega,
          List.getElem?_cons_succ]
        simpa using getElemOpt_append_length_add (printL (.App r1 r2)) (')' :: rest) 0
      rw [parseTermLoop_close_some src (pre.length + (printL l).length + 1)
        (pre.length + (printL l).length + 1 + (printL (.App r1 r2)).length)
        (.App r1 r2) h2 hcc]
      show parseTermLoop src i0
          (pre.length + (printL l).length + 1 + (printL (.App r1 r2)).length + 1)
          (some (acc_append (some (graftOpt acc l)) (.App r1 r2)))
        = parseTermLoop src i0 (pre.length + (printL (.App l (.App r1 r2))).length)
          (some (graftOpt acc (.App l (.App r1 r2))))
      rw [graftOpt_app,
        show pre.length + (printL (.App l (.App r1 r2))).length
          = pre.length + (printL l).length + 1 + (printL (.App r1 r2)).length + 1 from by
        rw [show printL (.App l (.App r1 r2))
            = printL l ++ ('(' :: (printL (.App r1 r2) ++ [')'])) from rfl]
        simp only [List.length_append, List.length_cons, List.length_nil]
        omega]
      rfl

end CombCalc

namespace CombCalc

/-- Parser/printer round trip for terms built only from S, K and application. -/
theorem parse_print (t : Term) (h : isSK t = true) : parse (strTerm t) = .ok t := by
  have hrun := parse_run t [] [] 0 none h
  rw [List.nil_append, List.append_nil, List.length_nil, Nat.zero_add] at hrun
  have hend := parseTermLoop_end_ok (printL t) (printL t).length (graftOpt none t)
    (Nat.le_refl _)
  rw [parse, parse_term, strTerm_data t, hrun, hend]
  simp [graftOpt]

/-- Evaluation: parse of the empty string raises the empty-term error. -/
theorem parse_empty_eval : parse "" = .error .emptyTerm := by
  rw [parse, parse_term, show ("" : String).data = ([] : List Char) from rfl,
    parseTermLoop_end_empty [] 0 (Nat.le_refl 0)]

/-- Evaluation: an unclosed opening bracket is reported at its index. -/
theorem parse_sparenk_eval : parse "S(K" = .error (.unclosedBracket 1) := by
  have e1 : parseTermLoop ['S', '(', 'K'] 0 0 none
      = parseTermLoop ['S', '(', 'K'] 0 1 (some (.PrimComb "S")) :=
    parseTermLoop_sk ['S', '(', 'K'] 0 0 none (by decide) (Or.inl rfl)
  have e2 : parseTermLoop ['S', '(', 'K'] 0 1 (some (.PrimComb "S"))
      = match parseTermLoop ['S', '(', 'K'] 2 2 none with
        | .error e => .error e
        | .ok (t, j) =>
            parseTermLoop ['S', '(', 'K'] 0 j (some (acc_append (some (.PrimComb "S")) t)) :=
    parseTermLoop_open ['S', '(', 'K'] 0 1 (some (.PrimComb "S")) (by decide) rfl
  have e3 : parseTermLoop ['S', '(', 'K'] 2 2 none
      = parseTermLoop ['S', '(', 'K'] 2 3 (some (.PrimComb "K")) :=
    parseTermLoop_sk ['S', '(', 'K'] 2 2 none (by decide) (Or.inr rfl)
  have e4 : parseTermLoop ['S', '(', 'K'] 2 3 (some (.PrimComb "K"))
      = .error (.unclosedBracket 1) :=
    parseTermLoop_end_closed ['S', '(', 'K'] 2 3 (some (.PrimComb "K")) (by decide) (by decide)
  rw [parse, parse_term, show ("S(K" : String).data = ['S', '(', 'K'] from rfl,
    e1, e2, e3, e4]

/-- Evaluation: a closing bracket in final position is consumed by the
top-level loop, the returned index equals the input length, and parse
succeeds; the extraneous-bracket check does not fire. -/
theorem parse_skparen_eval : parse "SK)" = .ok (.App (.PrimComb "S") (.PrimComb "K")) := by
  have e1 : parseTermLoop ['S', 'K', ')'] 0 0 none
      = parseTermLoop ['S', 'K', ')'] 0 1 (some (.PrimComb "S")) :=
    parseTermLoop_sk ['S', 'K', ')'] 0 0 none (by decide) (Or.inl rfl)
  have e2 : parseTermLoop ['S', 'K', ')'] 0 1 (some (.PrimComb "S"))
      = parseTermLoop ['S', 'K', ')'] 0 2 (some (.App (.PrimComb "S") (.PrimComb "K"))) :=
    parseTermLoop_sk ['S', 'K', ')'] 0 1 (some (.PrimComb "S")) (by decide) (Or.inr rfl)
  have e3 : parseTermLoop ['S', 'K', ')'] 0 2 (some (.App (.PrimComb "S") (.PrimComb "K")))
      = .ok (.App (.PrimComb "S") (.PrimComb "K"), 3) :=
    parseTermLoop_close_some ['S', 'K', ')'] 0 2 (.App (.PrimComb "S") (.PrimComb "K"))
      (by decide) rfl
  rw [parse, parse_term, show ("SK)" : String).data = ['S', 'K', ')'] from rfl, e1, e2, e3]
  rfl

/-- Evaluation: an invalid character is reported at its index. -/
theorem parse_sx_eval : parse "SX" = .error (.invalidChar 1) := by
  have e1 : parseTermLoop ['S', 'X'] 0 0 none
      = parseTermLoop ['S', 'X'] 0 1 (some (.PrimComb "S")) :=
    parseTermLoop_sk ['S', 'X'] 0 0 none (by decide) (Or.inl rfl)
  have e2 : parseTermLoop ['S', 'X'] 0 1 (some (.PrimComb "S"))
      = .error (.invalidChar 1) :=
    parseTermLoop_invalid ['S', 'X'] 0 1 (some (.PrimComb "S")) (by decide)
      (by decide) (by decide) (by decide) (by decide)
  rw [parse, parse_term, show ("SX" : String).data = ['S', 'X'] from rfl, e1, e2]

/-- Evaluation: parse of the string SKK gives the doctest term. -/
theorem parse_skk_eval :
    parse "SKK" = .ok (.App (.App (.PrimComb "S") (.PrimComb "K")) (.PrimComb "K")) := by
  have e1 : parseTermLoop ['S', 'K', 'K'] 0 0 none
      = parseTermLoop ['S', 'K', 'K'] 0 1 (some (.PrimComb "S")) :=
    parseTermLoop_sk ['S', 'K', 'K'] 0 0 none (by decide) (Or.inl rfl)
  have e2 : parseTermLoop ['S', 'K', 'K'] 0 1 (some (.PrimComb "S"))
      = parseTermLoop ['S', 'K', 'K'] 0 2 (some (.App (.PrimComb "S") (.PrimComb "K"))) :=
    parseTermLoop_sk ['S', 'K', 'K'] 0 1 (some (.PrimComb "S")) (by decide) (Or.inr rfl)
  have e3 : parseTermLoop ['S', 'K', 'K'] 0 2 (some (.App (.PrimComb "S") (.PrimComb "K")))
      = parseTermLoop ['S', 'K', 'K'] 0 3
          (some (.App (.App (.PrimComb "S") (.PrimComb "K")) (.PrimComb "K"))) :=
    parseTermLoop_sk ['S', 'K', 'K'] 0 2 (some (.App (.PrimComb "S") (.PrimComb "K")))
      (by decide) (Or.inr rfl)
  have e4 : parseTermLoop ['S', 'K', 'K'] 0 3
        (some (.App (.App (.PrimComb "S") (.PrimComb "K")) (.PrimComb "K")))
      = .ok (.App (.App (.PrimComb "S") (.PrimComb "K")) (.PrimComb "K"), 3) :=
    parseTermLoop_end_ok ['S', 'K', 'K'] 3
      (.App (.App (.PrimComb "S") (.PrimComb "K")) (.PrimComb "K")) (by decide)
  rw [parse, parse_term, show ("SKK" : String).data = ['S', 'K', 'K'] from rfl,
    e1, e2, e3, e4]
  rfl

end CombCalc

namespace Unify

/-- A variable occurs in itself. -/
theorem occurs_in_self (l : GTerm) (h : is_var l = true) : occurs_in l l = true := by
  cases l with
  | str s => simp [occurs_in]
  | tup xs => simp [is_var] at h

/-- Unpacking occursArgs over a list. -/
theorem occursArgs_eq_false (v : GTerm) (ys : List GTerm) (h : occursArgs v ys = false) :
    ∀ a ∈ ys, occurs_in v a = false := by
  induction ys with
  | nil => intro a ha; exact absurd ha (List.not_mem_nil a)
  | cons b bs ih =>
    rw [occursArgs] at h
    have h2 : occurs_in v b = false ∧ occursArgs v bs = false := by
      simpa [Bool.or_eq_false_iff] using h
    intro a ha
    rcases List.mem_cons.mp ha with ha | ha
    · rw [ha]; exact h2.1
    · exact ih h2.2 a ha

/-- If a variable does not occur in an application, it occurs in none of the
arguments of the application. -/
theorem occurs_args_false (v t : GTerm) (hvar : is_var t = false)
    (h : occurs_in v t = false) : ∀ a ∈ args t, occurs_in v a = false := by
  cases t with
  | str s => simp [is_var] at hvar
  | tup xs =>
    cases xs with
    | nil => intro a ha; simp [args] at ha
    | cons f restx =>
      rw [occurs_in] at h
      intro a ha
      exact occursArgs_eq_false v restx h a (by simpa [args] using ha)

/-- Mapping a substitution over a list preserves absence of a variable, given
element-wise preservation. -/
theorem occursArgs_substArgs (u : GTerm) (s : List (GTerm × GTerm)) (ys : List GTerm)
    (ih : ∀ a ∈ ys, occurs_in u (subst s a) = false) :
    occursArgs u (substArgs s ys) = false := by
  induction ys with
  | nil => rfl
  | cons a as iha =>
    rw [substArgs, occursArgs, ih a (List.mem_cons_self a as),
      iha (fun b hb => ih b (List.mem_cons_of_mem a hb))]
    rfl

/-- Substituting a single binding whose value avoids u cannot introduce u,
provided u was absent before. -/
theorem occurs_subst_single (u l r : GTerm) (hr : occurs_in u r = false) :
    ∀ t, occurs_in u t = false → occurs_in u (subst [(l, r)] t) = false := by
  intro t
  induction t using GTerm.recOn2 with
  | hstr v =>
    intro h
    rw [subst]
    by_cases hl : l = GTerm.str v
    · simp only [dictGet, if_pos hl]
      exact hr
    · simp only [dictGet, if_neg hl]
      exact h
  | htup xs ih =>
    intro h
    cases xs with
    | nil => rfl
    | cons f restx =>
      rw [subst, occurs_in]
      rw [occurs_in] at h
      exact occursArgs_substArgs u [(l, r)] restx
        (fun a ha => ih a (List.mem_cons_of_mem f ha)
          (occursArgs_eq_false u restx h a ha))

/-- Substituting the binding of l by a value avoiding l eliminates l. -/
theorem occurs_l_subst_single (l r : GTerm) (hr : occurs_in l r = false) :
    ∀ t, occurs_in l (subst [(l, r)] t) = false := by
  intro t
  induction t using GTerm.recOn2 with
  | hstr v =>
    rw [subst]
    by_cases hl : l = GTerm.str v
    · simp only [dictGet, if_pos hl]
      exact hr
    · simp only [dictGet, if_neg hl, Option.getD_none]
      rw [occurs_in]
      simpa using hl
  | htup xs ih =>
    cases xs with
    | nil => rfl
    | cons f restx =>
      rw [subst, occurs_in]
      exact occursArgs_substArgs l [(l, r)] restx
        (fun a ha => ih a (List.mem_cons_of_mem f ha))

/-- Updating a dictionary at a fresh key appends the binding. -/
theorem dictSet_not_mem (s : List (GTerm × GTerm)) (k v : GTerm)
    (h : ∀ p ∈ s, p.1 ≠ k) : dictSet s k v = s ++ [(k, v)] := by
  induction s with
  | nil => rfl
  | cons p rest ih =>
    rw [dictSet, if_neg (h p (List.mem_cons_self p rest)),
      ih (fun q hq => h q (List.mem_cons_of_mem p hq))]
    rfl

/-- The last element of a list is a member. -/
theorem mem_of_getLastOpt {α : Type} : ∀ (l : List α) (a : α), l.getLast? = some a → a ∈ l := by
  intro l
  induction l with
  | nil => intro a h; simp [List.getLast?] at h
  | cons x xs ih =>
    intro a h
    cases xs with
    | nil =>
      simp [List.getLast?] at h
      simp [h]
    | cons y ys =>
      rw [List.getLast?_cons_cons] at h
      exact List.mem_cons_of_mem x (ih a h)

/-- Members of dropLast are members. -/
theorem mem_of_mem_dropLastL {α : Type} (l : List α) (a : α) (h : a ∈ l.dropLast) :
    a ∈ l :=
  (List.dropLast_sublist l).subset h

end Unify

namespace Unify

/-- One loop iteration of unify preserves the invariant: whenever the popped
equation (l, r) and the remaining work-list come from an invariant-satisfying
state and the step continues, the new state satisfies the invariant again. -/
theorem unifyStep_inv (l r : GTerm) (eqs rest s : List (GTerm × GTerm))
    (hmem : (l, r) ∈ eqs) (hrest : ∀ e ∈ rest, e ∈ eqs)
    (hinv : UnifyInv eqs s) (eqs2 s2 : List (GTerm × GTerm))
    (hstep : unifyStep l r rest s = .next eqs2 s2) : UnifyInv eqs2 s2 := by
  obtain ⟨hsub, heqs⟩ := hinv
  by_cases heq : l = r
  · rw [unifyStep, if_pos heq] at hstep
    have h1 : rest = eqs2 ∧ s = s2 := by simpa [StepRes.next.injEq] using hstep
    obtain ⟨rfl, rfl⟩ := h1
    exact ⟨hsub, fun p hp e he => heqs p hp e (hrest e he)⟩
  · rw [unifyStep, if_neg heq] at hstep
    by_cases hv : is_var l
    · rw [if_pos hv] at hstep
      by_cases ho : occurs_in l r
      · rw [if_pos ho] at hstep
        simp at hstep
      · rw [if_neg ho] at hstep
        have hON : occurs_in l r = false := by simpa using ho
        have h1 : rest.map (fun p => (subst [(l, r)] p.1, subst [(l, r)] p.2)) = eqs2
            ∧ dictSet (s.map (fun p => (p.1, subst [(l, r)] p.2))) l r = s2 := by
          simpa [StepRes.next.injEq] using hstep
        obtain ⟨rfl, rfl⟩ := h1
        have hfresh : ∀ p ∈ s.map (fun p => (p.1, subst [(l, r)] p.2)), p.1 ≠ l := by
          intro p hp
          obtain ⟨q, hq, rfl⟩ := List.mem_map.mp hp
          intro hql
          have h2 : occurs_in q.1 l = false := (heqs q hq (l, r) hmem).1
          have h3 : q.1 = l := hql
          rw [h3, occurs_in_self l hv] at h2
          exact absurd h2 (by simp)
        rw [dictSet_not_mem _ l r hfresh]
        constructor
        · intro p hp q hq
          rcases List.mem_append.mp hp with hp | hp
          · obtain ⟨p0, hp0, rfl⟩ := List.mem_map.mp hp
            rcases List.mem_append.mp hq with hq | hq
            · obtain ⟨q0, hq0, rfl⟩ := List.mem_map.mp hq
              exact occurs_subst_single p0.1 l r (heqs p0 hp0 (l, r) hmem).2 q0.2
                (hsub p0 hp0 q0 hq0)
            · have hq2 : q = (l, r) := by simpa using hq
              rw [hq2]
              exact (heqs p0 hp0 (l, r) hmem).2
          · have hp2 : p = (l, r) := by simpa using hp
            rcases List.mem_append.mp hq with hq | hq
            · obtain ⟨q0, hq0, rfl⟩ := List.mem_map.mp hq
              rw [hp2]
              exact occurs_l_subst_single l r hON q0.2
            · have hq2 : q = (l, r) := by simpa using hq
              rw [hp2, hq2]
              exact hON
        · intro p hp e he
          obtain ⟨e0, he0, rfl⟩ := List.mem_map.mp he
          rcases List.mem_append.mp hp with hp | hp
          · obtain ⟨p0, hp0, rfl⟩ := List.mem_map.mp hp
            exact ⟨occurs_subst_single p0.1 l r (heqs p0 hp0 (l, r) hmem).2 e0.1
                (heqs p0 hp0 e0 (hrest e0 he0)).1,
              occurs_subst_single p0.1 l r (heqs p0 hp0 (l, r) hmem).2 e0.2
                (heqs p0 hp0 e0 (hrest e0 he0)).2⟩
          · have hp2 : p = (l, r) := by simpa using hp
            rw [hp2]
            exact ⟨occurs_l_subst_single l r hON e0.1, occurs_l_subst_single l r hON e0.2⟩
    · rw [if_neg hv] at hstep
      by_cases hv2 : is_var r
      · rw [if_pos hv2] at hstep
        have h1 : rest ++ [(r, l)] = eqs2 ∧ s = s2 := by
          simpa [StepRes.next.injEq] using hstep
        obtain ⟨rfl, rfl⟩ := h1
        refine ⟨hsub, fun p hp e he => ?_⟩
        rcases List.mem_append.mp he with he | he
        · exact heqs p hp e (hrest e he)
        · have he2 : e = (r, l) := by simpa using he
          rw [he2]
          have h3 := heqs p hp (l, r) hmem
          exact ⟨h3.2, h3.1⟩
      · rw [if_neg hv2] at hstep
        by_cases hf : fun_sym l ≠ fun_sym r
        · rw [if_pos hf] at hstep
          simp at hstep
        · rw [if_neg hf] at hstep
          have h1 : rest ++ (args l).zip (args r) = eqs2 ∧ s = s2 := by
            simpa [StepRes.next.injEq] using hstep
          obtain ⟨rfl, rfl⟩ := h1
          refine ⟨hsub, fun p hp e he => ?_⟩
          rcases List.mem_append.mp he with he | he
          · exact heqs p hp e (hrest e he)
          · have h2 := List.of_mem_zip he
            have hvl : is_var l = false := by simpa using hv
            have hvr : is_var r = false := by simpa using hv2
            exact ⟨occurs_args_false p.1 l hvl (heqs p hp (l, r) hmem).1 e.1 h2.1,
              occurs_args_false p.1 r hvr (heqs p hp (l, r) hmem).2 e.2 h2.2⟩

/-- The unification loop started from an invariant-satisfying state only ever
returns substitutions with the closure property. -/
theorem unifyFuel_substOk : ∀ (n : Nat) (eqs s res : List (GTerm × GTerm)),
    UnifyInv eqs s → unifyFuel n eqs s = some (.ok res) → SubstOk res := by
  intro n
  induction n with
  | zero =>
    intro eqs s res hinv h
    simp [unifyFuel] at h
  | succ n ih =>
    intro eqs s res hinv h
    rw [unifyFuel] at h
    split at h
    · have h2 : s = res := by simpa using h
      rw [← h2]
      exact hinv.1
    · rename_i e l r hlast
      split at h
      · exact absurd h (by simp)
      · rename_i eqs2 s2 hstep
        exact ih eqs2 s2 res
          (unifyStep_inv l r eqs eqs.dropLast s (mem_of_getLastOpt eqs (l, r) hlast)
            (fun e2 he2 => mem_of_mem_dropLastL eqs e2 he2) hinv eqs2 s2 hstep) h

end Unify

namespace Unify

/-- Characterization of the two unification errors at a single loop iteration,
for the popped equation (l, r): the occurs-check error is raised exactly when
the step would bind the variable l (so l and r differ and l is a variable) to
a term r containing l, and the mismatch error is raised exactly when both
sides are applications of different function symbols. -/
theorem unifyStep_error_iff (l r : GTerm) (rest s : List (GTerm × GTerm)) :
    (unifyStep l r rest s = .fail (.occursCheck l r)
      ↔ l ≠ r ∧ is_var l = true ∧ occurs_in l r = true)
  ∧ ∀ f g : GTerm, unifyStep l r rest s = .fail (.symbolMismatch f g)
      ↔ l ≠ r ∧ is_var l = false ∧ is_var r = false ∧ f = fun_sym l ∧ g = fun_sym r
        ∧ fun_sym l ≠ fun_sym r := by
  constructor
  · constructor
    · intro h
      by_cases heq : l = r
      · rw [unifyStep, if_pos heq] at h
        simp at h
      · rw [unifyStep, if_neg heq] at h
        by_cases hv : is_var l
        · rw [if_pos hv] at h
          by_cases ho : occurs_in l r
          · exact ⟨heq, hv, ho⟩
          · rw [if_neg ho] at h
            simp at h
        · rw [if_neg hv] at h
          by_cases hv2 : is_var r
          · rw [if_pos hv2] at h
            simp at h
          · rw [if_neg hv2] at h
            by_cases hf : fun_sym l ≠ fun_sym r
            · rw [if_pos hf] at h
              simp at h
            · rw [if_neg hf] at h
              simp at h
    · rintro ⟨heq, hv, ho⟩
      rw [unifyStep, if_neg heq, if_pos hv, if_pos ho]
  · intro f g
    constructor
    · intro h
      by_cases heq : l = r
      · rw [unifyStep, if_pos heq] at h
        simp at h
      · by_cases hv : is_var l
        · rw [unifyStep, if_neg heq, if_pos hv] at h
          by_cases ho : occurs_in l r
          · rw [if_pos ho] at h
            simp at h
          · rw [if_neg ho] at h
            simp at h
        · by_cases hv2 : is_var r
          · rw [unifyStep, if_neg heq, if_neg hv, if_pos hv2] at h
            simp at h
          · by_cases hf : fun_sym l ≠ fun_sym r
            · rw [unifyStep, if_neg heq, if_neg hv, if_neg hv2, if_pos hf] at h
              have h2 : fun_sym l = f ∧ fun_sym r = g := by
                simpa [StepRes.fail.injEq, UnificationError.symbolMismatch.injEq] using h
              exact ⟨heq, by simpa using hv, by simpa using hv2, h2.1.symm, h2.2.symm, hf⟩
            · rw [unifyStep, if_neg heq, if_neg hv, if_neg hv2, if_neg hf] at h
              simp at h
    · rintro ⟨heq, hv, hv2, hf, hg, hne⟩
      rw [unifyStep, if_neg heq, if_neg (by simp [hv]), if_neg (by simp [hv2]),
        if_pos hne, hf, hg]

/-- An error raised by a loop iteration becomes the result of unify at once,
with no substitution attached. -/
theorem unifyFuel_error_of_step (l r : GTerm) (n : Nat) (eqs s : List (GTerm × GTerm))
    (e : UnificationError) (hlast : eqs.getLast? = some (l, r))
    (hstep : unifyStep l r eqs.dropLast s = .fail e) :
    unifyFuel (n+1) eqs s = some (.error e) := by
  rw [unifyFuel, hlast]
  show (match unifyStep l r eqs.dropLast s with
    | .fail e2 => some (.error e2)
    | .next eqs2 s2 => unifyFuel n eqs2 s2) = some (.error e)
  rw [hstep]

/-- Binding a variable that the initial substitution already binds replaces
the initial binding in the returned substitution. -/
theorem unify_override (v t0 t1 : GTerm) (hv : is_var v = true) (hne : v ≠ t1)
    (ho : occurs_in v t1 = false) :
    unify 2 [(v, t1)] (some [(v, t0)]) = some (.ok [(v, t1)]) := by
  have hstep : unifyStep v t1 [] [(v, t0)] = .next [] [(v, t1)] := by
    rw [unifyStep, if_neg hne, if_pos hv, if_neg (by simp [ho])]
    simp [dictSet]
  rw [unify]
  rw [show (some [(v, t0)] : Option (List (GTerm × GTerm))).getD [] = [(v, t0)] from rfl]
  rw [unifyFuel]
  rw [show ([(v, t1)] : List (GTerm × GTerm)).getLast? = some (v, t1) from rfl]
  show (match unifyStep v t1 ([(v, t1)] : List (GTerm × GTerm)).dropLast [(v, t0)] with
    | .fail e => some (.error e)
    | .next eqs2 s2 => unifyFuel 1 eqs2 s2) = some (.ok [(v, t1)])
  rw [show ([(v, t1)] : List (GTerm × GTerm)).dropLast = ([] : List (GTerm × GTerm)) from rfl,
    hstep]
  rfl

end Unify

namespace CombCalc

/-- The S-rule fires at the root for every a, b, c. -/
theorem reduce1_srule (a b c : Term) :
    reduce1 (.App (.App (.App PrimS a) b) c) = some (.App (.App a c) (.App b c)) := by
  simp [reduce1, rootRedex]

/-- The K-rule fires at the root for every a, b. -/
theorem reduce1_krule (a b : Term) :
    reduce1 (.App (.App PrimK a) b) = some a := by
  simp [reduce1, rootRedex, PrimS, PrimK]

/-- The adapter round-trip laws hold exactly on admissible argument lists. -/
theorem unifier_adapter_laws (f : CFunSym) (as : List Term)
    (h : Unifier.validArgs f as) :
    (Unifier.apply f as).bind Unifier.fun_sym = some f
    ∧ (Unifier.apply f as).bind Unifier.args = some as := by
  cases f with
  | primComb n =>
    have h2 : as = [] := h
    subst h2
    exact ⟨rfl, rfl⟩
  | appCls =>
    have h2 : as.length = 2 := h
    cases as with
    | nil => simp at h2
    | cons a as2 =>
      cases as2 with
      | nil => simp at h2
      | cons b as3 =>
        cases as3 with
        | nil => exact ⟨rfl, rfl⟩
        | cons c as4 => simp at h2

end CombCalc

/-- Claim C1 (code evaluation).  The claim states that reduce1 returns None on
every normal form, in particular on bare variables and the primitive
combinators S and K.  The code instead returns the term itself in each of
these cases, and consequently reduce1 returns some term on every input: the
None branch of reduce1 is unreachable. -/
theorem c1_reduce1_returns_term_on_normal_forms :
    CombCalc.reduce1 (.Var "x") = some (.Var "x")
    ∧ CombCalc.reduce1 CombCalc.PrimS = some CombCalc.PrimS
    ∧ CombCalc.reduce1 CombCalc.PrimK = some CombCalc.PrimK
    ∧ ∀ t : CombCalc.Term, (CombCalc.reduce1 t).isSome = true :=
  ⟨rfl, rfl, rfl, CombCalc.reduce1_isSome⟩

/-- Claim C2.  For every term built only from the primitive combinators S and
K and application nodes (no variables), parsing the canonical printed form of
the term gives back exactly the term. -/
theorem c2_parse_print_roundtrip (t : CombCalc.Term) (h : CombCalc.isSK t = true) :
    CombCalc.parse (CombCalc.strTerm t) = .ok t :=
  CombCalc.parse_print t h

/-- Witness for claim C2 at the concrete term SKK. -/
theorem c2_parse_print_roundtrip_witness :
    CombCalc.isSK (.App (.App (.PrimComb "S") (.PrimComb "K")) (.PrimComb "K")) = true
    ∧ CombCalc.parse (CombCalc.strTerm
        (.App (.App (.PrimComb "S") (.PrimComb "K")) (.PrimComb "K")))
      = .ok (.App (.App (.PrimComb "S") (.PrimComb "K")) (.PrimComb "K")) :=
  ⟨by decide, c2_parse_print_roundtrip _ (by decide)⟩

/-- Claim C3 (code evaluation).  The claim states that reduce applied to the
application of parse of the string SKK to any term X terminates and returns X.
In the code parse of SKK is the expected term, but the reduce loop never
terminates on the resulting application, whatever the fuel: since reduce1
never returns None, the loop condition never becomes false. -/
theorem c3_reduce_skk_never_terminates :
    CombCalc.parse "SKK"
      = .ok (.App (.App (.PrimComb "S") (.PrimComb "K")) (.PrimComb "K"))
    ∧ ∀ (X : CombCalc.Term) (n : Nat),
        CombCalc.reduceFuel n
          (.App (.App (.App (.PrimComb "S") (.PrimComb "K")) (.PrimComb "K")) X) = none :=
  ⟨CombCalc.parse_skk_eval, fun _ n => CombCalc.reduceFuel_eq_none n _⟩

/-- Claim C4 (code evaluation).  Three of the four claimed behaviours hold:
the empty string raises the empty-term error (with no position attached),
parse of the string S(K raises the unclosed-bracket error at index 1, and
parse of the string SX raises the invalid-character error at index 1.  But
parse of the string SK) succeeds, returning the parse of SK: the trailing
closing bracket is consumed by the top-level loop, the returned index equals
the input length, and the extraneous-bracket check never fires. -/
theorem c4_parse_error_evaluations :
    CombCalc.parse "" = .error .emptyTerm
    ∧ CombCalc.parse "S(K" = .error (.unclosedBracket 1)
    ∧ CombCalc.parse "SK)" = .ok (.App (.PrimComb "S") (.PrimComb "K"))
    ∧ CombCalc.parse "SX" = .error (.invalidChar 1) :=
  ⟨CombCalc.parse_empty_eval, CombCalc.parse_sparenk_eval, CombCalc.parse_skparen_eval,
    CombCalc.parse_sx_eval⟩

/-- Claim C5, amended: when unify is called with no initial substitution (the
None default, meaning the empty substitution) and returns a substitution, no
variable in the domain of the returned mapping occurs in any term of its
range.  The original claim quantified over arbitrary initial substitutions and
is refuted by the separate counterexample theorem. -/
theorem c5_unify_idempotent_with_empty_initial (fuel : Nat)
    (eqs res : List (Unify.GTerm × Unify.GTerm))
    (h : Unify.unify fuel eqs none = some (.ok res)) : Unify.SubstOk res := by
  have hinv : Unify.UnifyInv eqs [] := by
    constructor
    · intro p hp
      exact absurd hp (List.not_mem_nil p)
    · intro p hp
      exact absurd hp (List.not_mem_nil p)
  exact Unify.unifyFuel_substOk fuel eqs [] res hinv h

/-- Witness for claim C5 on the doctest equation set. -/
theorem c5_unify_idempotent_witness : Unify.SubstOk [(.str "y", .str "x")] :=
  c5_unify_idempotent_with_empty_initial 10
    [(.tup [.str "f", .str "x", .str "y"], .tup [.str "f", .str "y", .str "x"])]
    [(.str "y", .str "x")] rfl

/-- Counterexample for claim C5 as stated: with the non-empty initial
substitution binding x to the application (f, x) and an empty equation list,
unify succeeds and returns that substitution unchanged, and the domain
variable x occurs in the range term (f, x). -/
theorem c5_counterexample :
    Unify.unify 1 [] (some [(.str "x", .tup [.str "f", .str "x"])])
      = some (.ok [(.str "x", .tup [.str "f", .str "x"])])
    ∧ Unify.occurs_in (.str "x") (.tup [.str "f", .str "x"]) = true
    ∧ ¬ Unify.SubstOk [(.str "x", .tup [.str "f", .str "x"])] := by
  refine ⟨rfl, rfl, ?_⟩
  intro h
  have h2 := h (.str "x", .tup [.str "f", .str "x"]) (by simp)
    (.str "x", .tup [.str "f", .str "x"]) (by simp)
  exact absurd h2 (by decide)

/-- Claim C6, amended: the round-trip laws fun_sym (apply f args) = f and
args (apply f args) = args hold unconditionally for the generic tuple algebra,
and for the combinator adapter they hold exactly on admissible argument lists:
the empty list for a primitive-combinator symbol (whose apply ignores its
arguments) and two-element lists for the application symbol.  The original
universal claim for the adapter is refuted by the separate counterexample
theorem. -/
theorem c6_roundtrip_laws :
    (∀ (f : Unify.GTerm) (as : List Unify.GTerm),
      Unify.fun_sym (Unify.apply f as) = f ∧ Unify.args (Unify.apply f as) = as)
    ∧ ∀ (f : CombCalc.CFunSym) (as : List CombCalc.Term),
        CombCalc.Unifier.validArgs f as →
        (CombCalc.Unifier.apply f as).bind CombCalc.Unifier.fun_sym = some f
        ∧ (CombCalc.Unifier.apply f as).bind CombCalc.Unifier.args = some as :=
  ⟨fun _ _ => ⟨rfl, rfl⟩, fun f as h => CombCalc.unifier_adapter_laws f as h⟩

/-- Witness for claim C6 at the application symbol with two arguments. -/
theorem c6_roundtrip_laws_witness :
    CombCalc.Unifier.validArgs .appCls [CombCalc.PrimS, CombCalc.PrimK]
    ∧ ((CombCalc.Unifier.apply .appCls [CombCalc.PrimS, CombCalc.PrimK]).bind
          CombCalc.Unifier.fun_sym = some .appCls
      ∧ (CombCalc.Unifier.apply .appCls [CombCalc.PrimS, CombCalc.PrimK]).bind
          CombCalc.Unifier.args = some [CombCalc.PrimS, CombCalc.PrimK]) :=
  ⟨rfl, c6_roundtrip_laws.2 .appCls [CombCalc.PrimS, CombCalc.PrimK] rfl⟩

/-- Counterexample for claim C6 as stated: applying the primitive-combinator
symbol S to the one-element argument list holding the variable x yields the
combinator S itself, whose argument list is empty, not the original
one-element list. -/
theorem c6_counterexample :
    (CombCalc.Unifier.apply (.primComb "S") [CombCalc.Term.Var "x"]).bind
        CombCalc.Unifier.args = some []
    ∧ (CombCalc.Unifier.apply (.primComb "S") [CombCalc.Term.Var "x"]).bind
        CombCalc.Unifier.args ≠ some [CombCalc.Term.Var "x"] :=
  ⟨rfl, by decide⟩

/-- Claim C7.  For all terms a, b, c the S-rule rewrites a root of shape
((S a) b) c to (a c)(b c) and the K-rule rewrites a root of shape (K a) b to
a, both checked at the root before any recursion; in particular reduce1 maps
App (App K S) K to S. -/
theorem c7_root_rules :
    (∀ a b c : CombCalc.Term,
      CombCalc.reduce1 (.App (.App (.App CombCalc.PrimS a) b) c)
        = some (.App (.App a c) (.App b c)))
    ∧ (∀ a b : CombCalc.Term, CombCalc.reduce1 (.App (.App CombCalc.PrimK a) b) = some a)
    ∧ CombCalc.reduce1 (.App (.App CombCalc.PrimK CombCalc.PrimS) CombCalc.PrimK)
      = some CombCalc.PrimS :=
  ⟨CombCalc.reduce1_srule, CombCalc.reduce1_krule, rfl⟩

/-- Claim C8.  At each loop iteration of unify, for the popped equation
(l, r): the occurs-check error is raised exactly when l is a variable that
differs from r and occurs in r, and the symbol-mismatch error is raised
exactly when both sides are applications whose function symbols differ;
either error immediately becomes the result of unify and carries no
substitution alongside. -/
theorem c8_unification_errors (l r : Unify.GTerm)
    (rest s : List (Unify.GTerm × Unify.GTerm)) :
    (Unify.unifyStep l r rest s = .fail (.occursCheck l r)
      ↔ l ≠ r ∧ Unify.is_var l = true ∧ Unify.occurs_in l r = true)
    ∧ (∀ f g : Unify.GTerm, Unify.unifyStep l r rest s = .fail (.symbolMismatch f g)
      ↔ l ≠ r ∧ Unify.is_var l = false ∧ Unify.is_var r = false
        ∧ f = Unify.fun_sym l ∧ g = Unify.fun_sym r
        ∧ Unify.fun_sym l ≠ Unify.fun_sym r)
    ∧ ∀ (n : Nat) (eqs : List (Unify.GTerm × Unify.GTerm)) (e : Unify.UnificationError),
        eqs.getLast? = some (l, r) → Unify.unifyStep l r eqs.dropLast s = .fail e →
        Unify.unifyFuel (n+1) eqs s = some (.error e) :=
  ⟨(Unify.unifyStep_error_iff l r rest s).1, (Unify.unifyStep_error_iff l r rest s).2,
    fun n eqs e h1 h2 => Unify.unifyFuel_error_of_step l r n eqs s e h1 h2⟩

/-- Witness for claim C8: the occurs check fires on binding x to (f, x). -/
theorem c8_unification_errors_witness :
    Unify.unifyStep (.str "x") (.tup [.str "f", .str "x"]) [] []
      = .fail (.occursCheck (.str "x") (.tup [.str "f", .str "x"])) :=
  (c8_unification_errors (.str "x") (.tup [.str "f", .str "x"]) [] []).1.mpr
    ⟨by decide, rfl, rfl⟩

/-- Claim C9.  The two doctest computations of unify2 under the generic tuple
algebra: unifying (f, x, y) with (f, y, x) yields the substitution mapping y
to x, and unifying (f, x, (g, y, z)) with (f, x, w) yields the substitution
mapping w to (g, y, z). -/
theorem c9_unify2_examples :
    Unify.unify2 10 (.tup [.str "f", .str "x", .str "y"])
        (.tup [.str "f", .str "y", .str "x"]) none
      = some (.ok [(.str "y", .str "x")])
    ∧ Unify.unify2 10 (.tup [.str "f", .str "x", .tup [.str "g", .str "y", .str "z"]])
        (.tup [.str "f", .str "x", .str "w"]) none
      = some (.ok [(.str "w", .tup [.str "g", .str "y", .str "z"])]) :=
  ⟨rfl, rfl⟩

/-- Claim C10, modelled by explicit state passing: the mutation of the
equation list and of the substitution dictionary is represented by the loop
carrying both as state; the loop only returns the substitution once the
equation state is the empty list, and a binding produced during unification
for a variable v already bound in the non-None initial substitution replaces
the initial binding of v in the returned dictionary. -/
theorem c10_initial_binding_replaced (v t0 t1 : Unify.GTerm)
    (hv : Unify.is_var v = true) (hne : v ≠ t1) (ho : Unify.occurs_in v t1 = false) :
    Unify.unify 2 [(v, t1)] (some [(v, t0)]) = some (.ok [(v, t1)]) :=
  Unify.unify_override v t0 t1 hv hne ho

/-- Witness for claim C10: the initial binding of x to z is replaced by the
binding of x to y produced by the equation x = y. -/
theorem c10_initial_binding_replaced_witness :
    Unify.unify 2 [(.str "x", .str "y")] (some [(.str "x", .str "z")])
      = some (.ok [(.str "x", .str "y")]) :=
  c10_initial_binding_replaced (.str "x") (.str "z") (.str "y") rfl (by decide) rfl
